import Mathlib

/-!
# Verification of the chanjo annotator pipeline and config subsystem

Shallow embedding of `chanjo/annotator/core.py` (the `pipeline` function and
its stage functions) and `chanjo/config/core.py` (`Config`, `init_pipeline`,
`set_value`, `_resolve_key`), with theorems settling the specification's
claims about them.

Conventions of the embedding:
* Python strings are Lean `String`s; character-level helpers work on
  `List Char` (a `String` wraps its list of characters).
* Machine integers are `Nat`/`Int` (Python integers are unbounded, so no
  wraparound modelling is needed); the float results coverage and
  completeness are represented as `ℚ` (every value the code produces is a
  ratio of integers).
* Fallible code returns `Option`/`Except`; a raised Python exception is an
  `Except.error`.
* Lazy generator pipelines are embedded as functions on fully materialised
  `List`s: the code is single-threaded and pull-based, so the list of all
  produced elements is a faithful denotation of each stage.
-/

set_option autoImplicit false

namespace Chanjo

/-! ## Character/string helpers (embedding the Python `str` operations used) -/

/-- The whitespace characters stripped by Python's `str.rstrip()` that can
occur in text records (space, tab, carriage return, newline). -/
def pyWhitespace (c : Char) : Bool :=
  c = ' ' || c = '\t' || c = '\r' || c = '\n'

/-- Embeds `str.rstrip()`: drop trailing whitespace characters. -/
def rstripL (cs : List Char) : List Char :=
  (cs.reverse.dropWhile pyWhitespace).reverse

/-- Embeds `str.rstrip()` at the `String` level. -/
def str_rstrip (s : String) : String :=
  ⟨rstripL s.data⟩

/-- Embeds Python `str.split(sep='\t')` on the character list: split at every
tab, keeping empty fields (`"".split('\t') == ['']`). -/
def splitTabL : List Char → List (List Char)
  | [] => [[]]
  | c :: rest =>
    if c = '\t' then
      [] :: splitTabL rest
    else
      match splitTabL rest with
      | [] => [[c]]
      | h :: t => (c :: h) :: t

/-- Embeds `partial(str.split, sep='\t')` as applied in the pipeline. -/
def split_tab (s : String) : List String :=
  (splitTabL s.data).map fun cs => ⟨cs⟩

/-- Embeds Python `int(s)` restricted to the non-negative integer literals
the BED fields must be: all-digit strings; anything else is a parse error. -/
def parseNat : List Char → Option Nat
  | [] => none
  | cs =>
    cs.foldl
      (fun acc c =>
        match acc with
        | some n => if c.isDigit then some (n * 10 + (c.toNat - '0'.toNat)) else none
        | none => none)
      (some 0)

/-- `parseNat` at the `String` level. -/
def str_toNat (s : String) : Option Nat :=
  parseNat s.data

/-- Embeds the curried `prepend` stage: string concatenation in front.  In the
pipeline it is applied to the whole record line (before splitting), so it
prefixes the raw contig field, which starts the line. -/
def prepend (pre : String) (s : String) : String :=
  pre ++ s

/-! ## Data model -/

/-- The `Interval` value type: `contig`, 0-based inclusive `start`, exclusive
`stop` (embedding the source's `end`, a reserved word in Lean), optional
`name`. -/
structure Interval where
  contig : String
  start : Nat
  stop : Nat
  name : Option String
  deriving DecidableEq, Repr

/-- Modelled from the spec: the depth source collaborator (`BamFile`).  It
exposes `query(contig, start, end)` returning one depth value per base of
`[start, end)`; we represent the underlying per-base depth data as a total
function (missing data reads as depth 0, the zero-fill choice of §9). -/
structure BamFile where
  depth : String → Nat → Nat

/-- Modelled from the spec: the single depth query `bam(contig, start, end)`,
one integer per base in `[start, end)`, same length as the request. -/
def BamFile.read (bam : BamFile) (contig : String) (s e : Nat) : List Nat :=
  (List.range (e - s)).map fun i => bam.depth contig (s + i)

/-- A `DepthSlice`: an interval paired with its per-base depth values. -/
abbrev DepthSlice := Interval × List Nat

/-- A `MetricResult`: `(Interval, coverage, completeness)`. -/
abbrev MetricResult := Interval × ℚ × ℚ

/-! ## Pipeline stages

The stage functions `bed_to_interval`, `extend_interval`, `group_intervals`,
`process_interval_group` and `calculate_metrics` live in
`chanjo/annotator/stages.py` and `chanjo/utils.py`, which are not among the
available source files; they are modelled from the spec (§4.1–§4.5), as is
`BamFile` above.  The `pipeline` orchestrator itself follows the source
(`chanjo/annotator/core.py`). -/

/-- Modelled from the spec (§4.1, missing `chanjo/utils.py`):
`bed_to_interval(*row)` builds an `Interval` from the split fields
`contig, start, end[, name, ...]`.  Fewer than three fields, a non-integer
coordinate, or `start > end` is a parse error (fail-fast); fields beyond the
fourth are ignored. -/
def bed_to_interval : List String → Option Interval
  | contig :: s :: e :: rest =>
    match str_toNat s, str_toNat e with
    | some sv, some ev =>
      if sv ≤ ev then some ⟨contig, sv, ev, rest.head?⟩ else none
    | _, _ => none
  | _ => none

/-- Modelled from the spec (§4.2, missing `chanjo/annotator/stages.py`):
`extend_interval(extension=e)` returns a new interval with
`start' = max(0, start - extension)` and `end' = end + extension`; a negative
extension that would invert `start'` past `end'` is rejected. -/
def extend_interval (extension : Int) (iv : Interval) : Option Interval :=
  let s' : Int := max 0 ((iv.start : Int) - extension)
  let e' : Int := (iv.stop : Int) + extension
  if s' ≤ e' then some ⟨iv.contig, s'.toNat, e'.toNat, iv.name⟩ else none

/-- Modelled from the spec (§4.3, missing `chanjo/annotator/stages.py`):
the greedy single-pass grouper's inner loop.  `contig`/`minStart` are the open
group's contig and running min-start, `acc` its members in arrival order.  An
incoming interval joins the open group when it has the same contig and
`new_end - group_min_start <= bp_threshold`; otherwise the group is emitted
and a fresh one is started. -/
def group_go (bp : Int) (contig : String) (minStart : Nat) (acc : List Interval) :
    List Interval → List (List Interval)
  | [] => [acc]
  | x :: rest =>
    if x.contig = contig ∧ (x.stop : Int) - (minStart : Int) ≤ bp then
      group_go bp contig (min minStart x.start) (acc ++ [x]) rest
    else
      acc :: group_go bp x.contig x.start [x] rest

/-- Modelled from the spec (§4.3): `group_intervals(bp_threshold=bp)` packs a
stream of intervals into groups; the empty stream yields no group, otherwise
the first interval opens the first group. -/
def group_intervals (bp : Int) : List Interval → List (List Interval)
  | [] => []
  | x :: rest => group_go bp x.contig x.start [x] rest

/-- Running minimum of the `start` fields over `rest`, seeded with `s`. -/
def groupMinStart (s : Nat) (rest : List Interval) : Nat :=
  rest.foldl (fun m iv => min m iv.start) s

/-- Running maximum of the `end` fields over `rest`, seeded with `e`. -/
def groupMaxEnd (e : Nat) (rest : List Interval) : Nat :=
  rest.foldl (fun m iv => max m iv.stop) e

/-- Modelled from the spec (§4.4, missing `chanjo/annotator/stages.py`):
`process_interval_group(bam)` issues one query over the group's union span
`[min_start, max_end)` on the group's contig and slices the returned per-base
depths back out for each member interval, in member order. -/
def process_interval_group (bam : BamFile) : List Interval → List DepthSlice
  | [] => []
  | x :: rest =>
    let minStart := groupMinStart x.start rest
    let maxEnd := groupMaxEnd x.stop rest
    let depths := bam.read x.contig minStart maxEnd
    (x :: rest).map fun iv =>
      (iv, (depths.drop (iv.start - minStart)).take (iv.stop - iv.start))

/-- Modelled from the spec (§4.5, missing `chanjo/annotator/stages.py`):
`calculate_metrics(threshold=cutoff)` reduces a depth slice to
`coverage = mean(depth values)` and
`completeness = count(depth_i >= cutoff) / length` with
`length = end - start` of the (already extended) interval; a zero-length
interval reports `(0, 0)` (the convention of §4.5). -/
def calculate_metrics (cutoff : Nat) (ds : DepthSlice) : MetricResult :=
  let length := ds.1.stop - ds.1.start
  if length = 0 then
    (ds.1, 0, 0)
  else
    (ds.1,
     (ds.2.sum : ℚ) / (length : ℚ),
     ((ds.2.countP fun d => cutoff ≤ d) : ℚ) / (length : ℚ))

/-! ## The pipeline orchestrator (`chanjo/annotator/core.py`) -/

/-- Errors surfaced by the pipeline: an invalid configuration
(`bp_threshold <= 0`, spec §4.3/§7) or a malformed input record (§4.1/§7). -/
inductive PipeError where
  | configError
  | parseError
  deriving DecidableEq, Repr

/-- Fallible map: the denotation of mapping a fail-fast stage over the
stream (the first raising record aborts the whole run). -/
def mapO {α β : Type} (f : α → Option β) : List α → Option (List β)
  | [] => some []
  | x :: rest =>
    match f x, mapO f rest with
    | some y, some ys => some (y :: ys)
    | _, _ => none

/-- Embeds `pipeline(bed_stream, bam_path, cutoff, extension, contig_prepend,
bp_threshold)` of `chanjo/annotator/core.py`: the stage order — rstrip,
prepend, split on tab, `bed_to_interval`, extend, group, per-group depth
retrieval, flatten, metrics — follows the source's `pipe` exactly.  The
up-front validation of `bp_threshold` is modelled from the spec (§4.3/§7:
"a non-positive value is a configuration error raised before any processing
begins"); it is part of the startup code missing from the available
sources. -/
def pipeline (bed_stream : List String) (bam : BamFile) (cutoff : Nat)
    (extension : Int) (contig_prepend : String) (bp_threshold : Int) :
    Except PipeError (List MetricResult) :=
  if bp_threshold ≤ 0 then
    .error .configError
  else
    let stripped := bed_stream.map str_rstrip
    let prepended := stripped.map (prepend contig_prepend)
    let rows := prepended.map split_tab
    match mapO bed_to_interval rows with
    | none => .error .parseError
    | some ivs =>
      match mapO (extend_interval extension) ivs with
      | none => .error .parseError
      | some extended =>
        let groups := group_intervals bp_threshold extended
        let sliceGroups := groups.map (process_interval_group bam)
        let flat := sliceGroups.flatten
        .ok (flat.map (calculate_metrics cutoff))

/-- Per-record parsing as the spec words it (§4.1 + §4.6): one record is
rstripped, prepended, split on tabs and converted to an `Interval`. -/
def parse_record (contig_prepend : String) (record : String) : Option Interval :=
  bed_to_interval (split_tab (prepend contig_prepend (str_rstrip record)))

/-- The spec's wording of the orchestrator (§4.6): validate configuration,
then parse each record, extend each interval, group, retrieve depth per
group, flatten, and compute metrics.  Stated separately from `pipeline` so
that their equality is a theorem about the source's stage composition. -/
def pipeline_spec (bed_stream : List String) (bam : BamFile) (cutoff : Nat)
    (extension : Int) (contig_prepend : String) (bp_threshold : Int) :
    Except PipeError (List MetricResult) :=
  if bp_threshold ≤ 0 then
    .error .configError
  else
    match mapO (fun r => (parse_record contig_prepend r).bind (extend_interval extension))
        bed_stream with
    | none => .error .parseError
    | some extended =>
      .ok (((group_intervals bp_threshold extended).map
              (process_interval_group bam)).flatten.map (calculate_metrics cutoff))

/-! ## The config subsystem (`chanjo/config/core.py`)

Python values stored in a config are embedded as `PyVal`; a Python `dict` is
an association list in insertion order with unique keys maintained by
`setKey` (assignment replaces in place, a fresh key appends). -/

/-- A Python value as it occurs in config data: an integer, a string, or a
nested dict (association list in insertion order). -/
inductive PyVal where
  | int (n : Int)
  | str (s : String)
  | dict (entries : List (String × PyVal))
  deriving Repr

/-- A Python dict of config values. -/
abbrev PyDict := List (String × PyVal)

/-- Embeds `d[k]` lookup / `k in d`: first (hence, with unique keys, only)
binding of `k`. -/
def dictLookup (k : String) : PyDict → Option PyVal
  | [] => none
  | (k', v) :: rest => if k' = k then some v else dictLookup k rest

/-- Embeds `d[k] = v`: replace the binding in place if `k` is present,
otherwise append it (Python dicts keep insertion order). -/
def setKey (k : String) (v : PyVal) : PyDict → PyDict
  | [] => [(k, v)]
  | (k', v') :: rest =>
    if k' = k then (k', v) :: rest else (k', v') :: setKey k v rest

/-- Embeds `d.update(other)`: assign every binding of `other` into `d`, in
order. -/
def dictUpdate (d other : PyDict) : PyDict :=
  other.foldl (fun acc kv => setKey kv.1 kv.2 acc) d

/-- The state of a `Config` instance: its own dict content (`Config` is a
`dict` subclass) and the `user_data` attribute. -/
structure ConfigObj where
  data : PyDict
  user_data : PyDict
  deriving Repr

/-- Embeds `Config.__init__(config_path, defaults, ...)` followed by the
conditional `load`: start from an empty dict, update with the defaults; when
the config path names an existing file whose markup parses to `fileData`,
`load` updates `user_data` with the file's data and then updates the dict
content with `user_data`. -/
def Config_init (defaults : PyDict) (file_exists : Bool) (fileData : PyDict) :
    ConfigObj :=
  let base : ConfigObj := { data := dictUpdate [] defaults, user_data := [] }
  if file_exists then
    let ud := dictUpdate base.user_data fileData
    { data := dictUpdate base.data ud, user_data := ud }
  else
    base

/-- Embeds `Config.save(**options)`: dumps `user_data` (and only
`user_data`) through the markup and returns the config itself for
chainability.  The pair is (persisted data, returned object). -/
def Config_save (config : ConfigObj) : PyDict × ConfigObj :=
  (config.user_data, config)

/-- The attribute names resolvable on a `Config` instance: the instance
attributes assigned in `__init__`, the methods the class defines, and the
methods inherited from `dict`.  `set` is not among them — the class body
defines only `__init__`, `load` and `save`, and `dict` has no `set`
method. -/
def configAttrs : List String :=
  ["user_data", "save_options", "markup", "config_path",
   "load", "save",
   "clear", "copy", "fromkeys", "get", "items", "keys",
   "pop", "popitem", "setdefault", "update", "values"]

/-- A raised Python exception in the config code. -/
inductive PyError where
  | attributeError
  | typeError
  deriving DecidableEq, Repr

/-- Embeds the attribute access `config.set`: an `AttributeError` unless
`"set"` resolves on the instance or its classes. -/
def config_getattr (name : String) : Except PyError Unit :=
  if name ∈ configAttrs then .ok () else .error .attributeError

/-- Embeds `_resolve_key` + `set_value` as one pure recursive update (the
Python code mutates `base` through references; pure state passing gives the
resulting dict).  Walking a missing intermediate key creates an empty dict
there; walking a key bound to a non-dict raises a `TypeError` (`in` on an
`int`, or item access/assignment on a non-dict). -/
def setPath (d : PyDict) : List String → PyVal → Except PyError PyDict
  | [], _ => .error .typeError
  | [k], v => .ok (setKey k v d)
  | k :: rest, v =>
    match dictLookup k d with
    | none => do
      let sub ← setPath [] rest v
      .ok (setKey k (.dict sub) d)
    | some (.dict sub) => do
      let sub' ← setPath sub rest v
      .ok (setKey k (.dict sub') d)
    | some _ => .error .typeError

/-- Embeds Python `str.split(sep='.')` (the dot-key split in
`_resolve_key`): like the tab split, but on `'.'`. -/
def splitDotL : List Char → List (List Char)
  | [] => [[]]
  | c :: rest =>
    if c = '.' then
      [] :: splitDotL rest
    else
      match splitDotL rest with
      | [] => [[c]]
      | h :: t => (c :: h) :: t

/-- Embeds `set_value(base, dot_key, value)`: resolve the dot key and set the
final binding. -/
def set_value (base : PyDict) (dot_key : String) (value : PyVal) :
    Except PyError PyDict :=
  setPath base ((splitDotL dot_key.data).map fun cs => (⟨cs⟩ : String)) value

/-- Reading back a dot path from a nested dict (`base[k1][k2]...[kn]`), used
to state what `set_value` wrote; the empty path denotes the dict itself. -/
def getPath (d : PyDict) : List String → Option PyVal
  | [] => some (.dict d)
  | k :: rest =>
    match dictLookup k d, rest with
    | some v, [] => some v
    | some (.dict sub), _ => getPath sub rest
    | _, _ => none

/-- Embeds `init_pipeline(program, config, questions)` from the point where
the questionnaire has produced its answers `user_defaults` (the questionnaire
itself is interactive I/O; its answers are a parameter).  For each answer it
performs `config.set(config.user_data, dot_key, value)` — an attribute
lookup of `set` on `config`, then the call — and finally `config.save()`.
On an exception the error is returned together with the config state at the
moment of the raise.  The result carries the final config state and the
persisted data from `save`. -/
def init_pipeline (config : ConfigObj) (user_defaults : List (String × PyVal)) :
    Except (PyError × ConfigObj) (ConfigObj × PyDict) :=
  match go config user_defaults with
  | .error e => .error e
  | .ok cfg =>
    let (persisted, cfg') := Config_save cfg
    .ok (cfg', persisted)
where
  /-- The `for dot_key, value in user_defaults.items()` loop body. -/
  go (config : ConfigObj) : List (String × PyVal) →
      Except (PyError × ConfigObj) ConfigObj
  | [] => .ok config
  | (dot_key, value) :: rest =>
    match config_getattr "set" with
    | .error e => .error (e, config)
    | .ok _ =>
      match set_value config.user_data dot_key value with
      | .error e => .error (e, config)
      | .ok ud => go { config with user_data := ud } rest

/-! ## Helper lemmas: fallible maps -/

theorem mapO_map {α β γ : Type} (f : β → Option γ) (g : α → β) (l : List α) :
    mapO f (l.map g) = mapO (fun a => f (g a)) l := by
  induction l with
  | nil => rfl
  | cons x rest ih => simp only [List.map_cons, mapO, ih]

theorem mapO_nil {α β : Type} (f : α → Option β) : mapO f [] = some [] := rfl

theorem mapO_fuse {α β γ : Type} (g : α → Option β) (f : β → Option γ)
    (l : List α) :
    mapO (fun a => (g a).bind f) l = (mapO g l).bind (mapO f) := by
  induction l with
  | nil => rfl
  | cons x rest ih =>
    cases hg : g x with
    | none => simp [mapO, hg]
    | some y =>
      cases hf : f y with
      | none =>
        cases hrest : mapO g rest with
        | none => simp [mapO, hg, hf, hrest, ih]
        | some ys => simp [mapO, hg, hf, hrest, ih]
      | some z =>
        cases hrest : mapO g rest with
        | none => simp [mapO, hg, hf, hrest, ih]
        | some ys => simp [mapO, hg, hf, hrest, ih]

theorem mapO_length {α β : Type} (f : α → Option β) (l : List α) (ys : List β)
    (h : mapO f l = some ys) : ys.length = l.length := by
  induction l generalizing ys with
  | nil => cases h; rfl
  | cons x rest ih =>
    simp only [mapO] at h
    cases hx : f x with
    | none => rw [hx] at h; exact absurd h (by simp)
    | some y =>
      rw [hx] at h
      cases hrest : mapO f rest with
      | none => rw [hrest] at h; exact absurd h (by simp)
      | some zs =>
        rw [hrest] at h
        cases h
        simp [ih zs hrest]

/-! ## Helper lemmas: grouping flattens back to the input -/

theorem group_go_flatten (bp : Int) (l : List Interval) :
    ∀ (contig : String) (minStart : Nat) (acc : List Interval),
      (group_go bp contig minStart acc l).flatten = acc ++ l := by
  induction l with
  | nil => intro c m acc; simp [group_go]
  | cons x rest ih =>
    intro c m acc
    simp only [group_go]
    split
    · rw [ih]; simp
    · simp only [List.flatten_cons, ih]; simp

theorem group_intervals_flatten (bp : Int) (xs : List Interval) :
    (group_intervals bp xs).flatten = xs := by
  cases xs with
  | nil => rfl
  | cons x rest => simpa using group_go_flatten bp rest x.contig x.start [x]

/-! ## Helper lemmas: union span bounds of a group -/

theorem groupMinStart_le_seed (rest : List Interval) :
    ∀ s : Nat, groupMinStart s rest ≤ s := by
  induction rest with
  | nil => intro s; exact Nat.le_refl s
  | cons x t ih =>
    intro s
    exact Nat.le_trans (ih (min s x.start)) (Nat.min_le_left _ _)

theorem groupMinStart_le_mem (rest : List Interval) :
    ∀ (s : Nat) (iv : Interval), iv ∈ rest → groupMinStart s rest ≤ iv.start := by
  induction rest with
  | nil => intro s iv h; cases h
  | cons x t ih =>
    intro s iv h
    rcases List.mem_cons.mp h with rfl | hmem
    · exact Nat.le_trans (groupMinStart_le_seed t _) (Nat.min_le_right _ _)
    · exact ih (min s x.start) iv hmem

theorem groupMaxEnd_seed_le (rest : List Interval) :
    ∀ e : Nat, e ≤ groupMaxEnd e rest := by
  induction rest with
  | nil => intro e; exact Nat.le_refl e
  | cons x t ih =>
    intro e
    exact Nat.le_trans (Nat.le_max_left _ _) (ih (max e x.stop))

theorem groupMaxEnd_mem_le (rest : List Interval) :
    ∀ (e : Nat) (iv : Interval), iv ∈ rest → iv.stop ≤ groupMaxEnd e rest := by
  induction rest with
  | nil => intro e iv h; cases h
  | cons x t ih =>
    intro e iv h
    rcases List.mem_cons.mp h with rfl | hmem
    · exact Nat.le_trans (Nat.le_max_right _ _) (groupMaxEnd_seed_le t _)
    · exact ih (max e x.stop) iv hmem

/-! ## Helper lemmas: slicing the union query recovers the isolated query -/

theorem read_slice (bam : BamFile) (contig : String) (minS maxE s e : Nat)
    (h1 : minS ≤ s) (h2 : e ≤ maxE) :
    ((bam.read contig minS maxE).drop (s - minS)).take (e - s)
      = bam.read contig s e := by
  apply List.ext_getElem
  · simp only [BamFile.read, List.length_take, List.length_drop, List.length_map,
      List.length_range]
    omega
  · intro n h₁ h₂
    simp only [BamFile.read, List.length_take, List.length_drop, List.length_map,
      List.length_range] at h₁ h₂ ⊢
    rw [List.getElem_take, List.getElem_drop, List.getElem_map, List.getElem_range,
      List.getElem_map, List.getElem_range]
    exact congrArg (bam.depth contig) (by omega)

/-! ## Helper lemmas: depth retrieval per group -/

theorem process_interval_group_fst (bam : BamFile) (g : List Interval) :
    (process_interval_group bam g).map Prod.fst = g := by
  cases g with
  | nil => rfl
  | cons x rest => simp [process_interval_group, List.map_map, Function.comp_def]

theorem process_interval_group_slice_len (bam : BamFile) (g : List Interval)
    (ds : DepthSlice) (h : ds ∈ process_interval_group bam g) :
    ds.2.length ≤ ds.1.stop - ds.1.start := by
  cases g with
  | nil => cases h
  | cons x rest =>
    simp only [process_interval_group, List.mem_map] at h
    obtain ⟨iv, -, rfl⟩ := h
    simp only [List.length_take]
    exact Nat.min_le_left _ _

theorem process_interval_group_isolated (bam : BamFile) (g : List Interval)
    (c : String) (hc : ∀ iv ∈ g, iv.contig = c) :
    process_interval_group bam g
      = g.map fun iv => (iv, bam.read iv.contig iv.start iv.stop) := by
  cases g with
  | nil => rfl
  | cons x rest =>
    simp only [process_interval_group]
    apply List.map_congr_left
    intro iv hiv
    have hmin : groupMinStart x.start rest ≤ iv.start := by
      rcases List.mem_cons.mp hiv with rfl | hmem
      · exact groupMinStart_le_seed rest iv.start
      · exact groupMinStart_le_mem rest x.start iv hmem
    have hmax : iv.stop ≤ groupMaxEnd x.stop rest := by
      rcases List.mem_cons.mp hiv with rfl | hmem
      · exact groupMaxEnd_seed_le rest iv.stop
      · exact groupMaxEnd_mem_le rest x.stop iv hmem
    have hcx : iv.contig = x.contig := by
      rw [hc iv hiv, hc x (List.mem_cons_self x rest)]
    rw [Prod.mk.injEq]
    exact ⟨rfl, by rw [hcx]; exact read_slice bam x.contig _ _ _ _ hmin hmax⟩

/-! ## Helper lemmas: metric bounds -/

theorem calculate_metrics_fst (cutoff : Nat) (ds : DepthSlice) :
    (calculate_metrics cutoff ds).1 = ds.1 := by
  simp only [calculate_metrics]
  split <;> rfl

theorem calculate_metrics_completeness_bounds (cutoff : Nat) (ds : DepthSlice)
    (h : ds.2.length ≤ ds.1.stop - ds.1.start) :
    0 ≤ (calculate_metrics cutoff ds).2.2 ∧ (calculate_metrics cutoff ds).2.2 ≤ 1 := by
  simp only [calculate_metrics]
  split
  · exact ⟨le_refl 0, zero_le_one⟩
  · next hlen =>
    constructor
    · positivity
    · rw [div_le_one (by positivity)]
      have hcount : (ds.2.countP fun d => cutoff ≤ d) ≤ ds.1.stop - ds.1.start :=
        Nat.le_trans (List.countP_le_length _) h
      exact_mod_cast hcount

/-! ## Helper lemmas: the pipeline as a whole -/

theorem pipeline_eq_spec (bs : List String) (bam : BamFile) (cutoff : Nat)
    (ext : Int) (pre : String) (bp : Int) :
    pipeline bs bam cutoff ext pre bp = pipeline_spec bs bam cutoff ext pre bp := by
  by_cases hbp : bp ≤ 0
  · simp [pipeline, pipeline_spec, hbp]
  · have hL : mapO bed_to_interval
        (((bs.map str_rstrip).map (prepend pre)).map split_tab)
        = mapO (parse_record pre) bs := by
      rw [mapO_map, mapO_map, mapO_map]
      rfl
    simp only [pipeline, pipeline_spec, if_neg hbp]
    rw [mapO_fuse, hL]
    cases hp : mapO (parse_record pre) bs with
    | none => rfl
    | some ivs =>
      cases he : mapO (extend_interval ext) ivs with
      | none => simp [Option.bind, he]
      | some extended => simp [Option.bind, he]

theorem pipeline_ok_shape (bs : List String) (bam : BamFile) (cutoff : Nat)
    (ext : Int) (pre : String) (bp : Int) (out : List MetricResult)
    (h : pipeline bs bam cutoff ext pre bp = .ok out) :
    ∃ extended,
      mapO (fun r => (parse_record pre r).bind (extend_interval ext)) bs
          = some extended ∧
      out = ((group_intervals bp extended).map
              (process_interval_group bam)).flatten.map (calculate_metrics cutoff) := by
  rw [pipeline_eq_spec] at h
  simp only [pipeline_spec] at h
  by_cases hbp : bp ≤ 0
  · rw [if_pos hbp] at h
    exact absurd h (by simp)
  · rw [if_neg hbp] at h
    cases hp : mapO (fun r => (parse_record pre r).bind (extend_interval ext)) bs with
    | none => rw [hp] at h; exact absurd h (by simp)
    | some extended =>
      rw [hp] at h
      refine ⟨extended, rfl, ?_⟩
      cases h
      rfl

theorem pipeline_ok_of_parse (bs : List String) (bam : BamFile) (cutoff : Nat)
    (ext : Int) (pre : String) (bp : Int) (extended : List Interval)
    (hbp : 0 < bp)
    (hp : mapO (fun r => (parse_record pre r).bind (extend_interval ext)) bs
            = some extended) :
    pipeline bs bam cutoff ext pre bp
      = .ok (((group_intervals bp extended).map
              (process_interval_group bam)).flatten.map (calculate_metrics cutoff)) := by
  rw [pipeline_eq_spec]
  simp only [pipeline_spec, if_neg (not_le.mpr hbp), hp]

theorem metrics_map_fst (cutoff : Nat) (l : List DepthSlice) :
    (l.map (calculate_metrics cutoff)).map Prod.fst = l.map Prod.fst := by
  rw [List.map_map]
  exact List.map_congr_left fun ds _ => calculate_metrics_fst cutoff ds

theorem flatten_process_fst (bam : BamFile) (bp : Int) (extended : List Interval) :
    (((group_intervals bp extended).map
        (process_interval_group bam)).flatten.map Prod.fst) = extended := by
  rw [List.map_flatten, List.map_map]
  have h1 : ∀ g ∈ group_intervals bp extended,
      (List.map Prod.fst ∘ process_interval_group bam) g = id g :=
    fun g _ => process_interval_group_fst bam g
  rw [List.map_congr_left h1, List.map_id]
  exact group_intervals_flatten bp extended

/-! ## Helper lemmas: record parsing -/

theorem str_eta (s : String) : (⟨s.data⟩ : String) = s := rfl

theorem parse_fold_none (cs : List Char) :
    cs.foldl
      (fun acc c =>
        match acc with
        | some n => if c.isDigit then some (n * 10 + (c.toNat - '0'.toNat)) else none
        | none => none)
      none = none := by
  induction cs with
  | nil => rfl
  | cons c rest ih => exact ih

theorem parse_fold_digits (cs : List Char) :
    ∀ (a n : Nat),
      cs.foldl
        (fun acc c =>
          match acc with
          | some n => if c.isDigit then some (n * 10 + (c.toNat - '0'.toNat)) else none
          | none => none)
        (some a) = some n →
      ∀ c ∈ cs, c.isDigit := by
  induction cs with
  | nil => intro a n _ c hc; cases hc
  | cons c rest ih =>
    intro a n h d hd
    by_cases hdig : c.isDigit
    · rcases List.mem_cons.mp hd with rfl | hmem
      · exact hdig
      · exact ih (a * 10 + (c.toNat - '0'.toNat)) n (by simpa [hdig] using h) d hmem
    · exfalso
      rw [List.foldl_cons] at h
      have hstep :
          (match some a with
            | some n => if c.isDigit then some (n * 10 + (c.toNat - '0'.toNat)) else none
            | none => none) = (none : Option Nat) := by simp [hdig]
      rw [hstep, parse_fold_none] at h
      cases h

theorem parseNat_digits (cs : List Char) (n : Nat) (h : parseNat cs = some n) :
    ∀ c ∈ cs, c.isDigit := by
  cases cs with
  | nil => cases h
  | cons c rest => exact parse_fold_digits (c :: rest) 0 n h

theorem parseNat_ne_nil (cs : List Char) (n : Nat) (h : parseNat cs = some n) :
    cs ≠ [] := by
  intro hnil
  rw [hnil] at h
  cases h

theorem digit_not_pyWhitespace (c : Char) (h : c.isDigit) :
    pyWhitespace c = false := by
  by_contra hw
  have hw' : pyWhitespace c = true := by
    cases hpw : pyWhitespace c with
    | false => exact absurd hpw hw
    | true => rfl
  simp only [pyWhitespace, Bool.or_eq_true, decide_eq_true_eq] at hw'
  rcases hw' with ((rfl | rfl) | rfl) | rfl <;> simp [Char.isDigit] at h

theorem digit_ne_tab (c : Char) (h : c.isDigit) : c ≠ '\t' := by
  intro hc
  rw [hc] at h
  simp [Char.isDigit] at h

theorem rstripL_append (a b : List Char) (hb : b ≠ [])
    (hbw : ∀ c ∈ b, pyWhitespace c = false) : rstripL (a ++ b) = a ++ b := by
  obtain ⟨c, t, hct⟩ : ∃ c t, b.reverse = c :: t := by
    cases hbr : b.reverse with
    | nil =>
      exact absurd (by simpa using congrArg List.reverse hbr) hb
    | cons c t => exact ⟨c, t, rfl⟩
  have hrev : (a ++ b).reverse = c :: (t ++ a.reverse) := by
    rw [List.reverse_append, hct, List.cons_append]
  have hc : pyWhitespace c = false := by
    refine hbw c ?_
    rw [← List.mem_reverse, hct]
    exact List.mem_cons_self _ _
  unfold rstripL
  rw [hrev, List.dropWhile_cons, hc]
  simp only [Bool.false_eq_true, if_false]
  rw [← hrev, List.reverse_reverse]

theorem splitTabL_no_tab (a : List Char) (h : ∀ c ∈ a, c ≠ '\t') :
    splitTabL a = [a] := by
  induction a with
  | nil => rfl
  | cons c rest ih =>
    have hc : c ≠ '\t' := h c (List.mem_cons_self _ _)
    have ih' := ih fun d hd => h d (List.mem_cons_of_mem _ hd)
    simp only [splitTabL, if_neg hc, ih']

theorem splitTabL_exists_cons (cs : List Char) :
    ∃ h t, splitTabL cs = h :: t := by
  induction cs with
  | nil => exact ⟨[], [], rfl⟩
  | cons c rest ih =>
    obtain ⟨hr, tr, hrt⟩ := ih
    by_cases hc : c = '\t'
    · exact ⟨[], splitTabL rest, by simp [splitTabL, hc]⟩
    · refine ⟨c :: hr, tr, ?_⟩
      simp only [splitTabL, if_neg hc]
      rw [hrt]

theorem splitTabL_append_left (a : List Char) (h : ∀ c ∈ a, c ≠ '\t') :
    ∀ (L : List Char) (h0 : List Char) (t0 : List (List Char)),
      splitTabL L = h0 :: t0 → splitTabL (a ++ L) = (a ++ h0) :: t0 := by
  induction a with
  | nil => intro L h0 t0 hL; simpa using hL
  | cons c a' ih =>
    intro L h0 t0 hL
    have hc : c ≠ '\t' := h c (List.mem_cons_self _ _)
    have ih' := ih (fun d hd => h d (List.mem_cons_of_mem _ hd)) L h0 t0 hL
    rw [List.cons_append]
    simp only [splitTabL, if_neg hc]
    rw [ih']
    rfl

theorem splitTabL_append (a rest : List Char) (h : ∀ c ∈ a, c ≠ '\t') :
    splitTabL (a ++ '\t' :: rest) = a :: splitTabL rest := by
  induction a with
  | nil => simp [splitTabL]
  | cons c t ih =>
    have hc : c ≠ '\t' := h c (List.mem_cons_self _ _)
    have ih' := ih fun d hd => h d (List.mem_cons_of_mem _ hd)
    rw [List.cons_append]
    simp only [splitTabL, if_neg hc]
    rw [ih']

theorem parse_record_data (pre rec : String) :
    parse_record pre rec
      = bed_to_interval
          ((splitTabL (pre.data ++ rstripL rec.data)).map fun cs => (⟨cs⟩ : String)) := by
  simp only [parse_record, split_tab, prepend, str_rstrip, String.data_append]

/-- The shared skeleton of the tab-delimited parsing theorems: a record whose
three fields are separated by single tabs, with a tab-free prefix and contig
and digit-string coordinates, parses to the expected `Interval`. -/
theorem parse_record_tab_fields (pre contig sstr estr : String) (sv ev : Nat)
    (hpre : ∀ c ∈ pre.data, c ≠ '\t') (hcontig : ∀ c ∈ contig.data, c ≠ '\t')
    (hs : parseNat sstr.data = some sv) (he : parseNat estr.data = some ev)
    (hle : sv ≤ ev) :
    parse_record pre (contig ++ "\t" ++ sstr ++ "\t" ++ estr)
      = some ⟨pre ++ contig, sv, ev, none⟩ := by
  have htab : ("\t" : String).data = ['\t'] := rfl
  have hdata : (contig ++ "\t" ++ sstr ++ "\t" ++ estr).data
      = contig.data ++ '\t' :: (sstr.data ++ '\t' :: estr.data) := by
    simp [String.data_append, htab]
  have hE : estr.data ≠ [] := parseNat_ne_nil _ _ he
  have hEw : ∀ c ∈ estr.data, pyWhitespace c = false :=
    fun c hc => digit_not_pyWhitespace c (parseNat_digits _ _ he c hc)
  have hSt : ∀ c ∈ sstr.data, c ≠ '\t' :=
    fun c hc => digit_ne_tab c (parseNat_digits _ _ hs c hc)
  have hEt : ∀ c ∈ estr.data, c ≠ '\t' :=
    fun c hc => digit_ne_tab c (parseNat_digits _ _ he c hc)
  have hstrip : rstripL ((contig ++ "\t" ++ sstr ++ "\t" ++ estr).data)
      = contig.data ++ '\t' :: (sstr.data ++ '\t' :: estr.data) := by
    rw [hdata]
    have hshape : contig.data ++ '\t' :: (sstr.data ++ '\t' :: estr.data)
        = (contig.data ++ '\t' :: (sstr.data ++ ['\t'])) ++ estr.data := by
      simp
    rw [hshape, rstripL_append _ _ hE hEw, ← hshape]
  have hsplit : splitTabL (pre.data ++ (contig.data ++ '\t' :: (sstr.data ++ '\t' :: estr.data)))
      = (pre.data ++ contig.data) :: sstr.data :: [estr.data] := by
    have hshape : pre.data ++ (contig.data ++ '\t' :: (sstr.data ++ '\t' :: estr.data))
        = (pre.data ++ contig.data) ++ '\t' :: (sstr.data ++ '\t' :: estr.data) := by
      simp
    rw [hshape,
      splitTabL_append _ _ (by
        intro c hc
        rcases List.mem_append.mp hc with h1 | h2
        · exact hpre c h1
        · exact hcontig c h2),
      splitTabL_append _ _ hSt, splitTabL_no_tab _ hEt]
  rw [parse_record_data, hstrip, hsplit]
  have hmkpre : (⟨pre.data ++ contig.data⟩ : String) = pre ++ contig := by
    rw [← String.data_append, str_eta]
  simp only [List.map_cons, List.map_nil, hmkpre, str_eta]
  simp only [bed_to_interval, str_toNat, hs, he, if_pos hle, List.head?]

/-! ## Helper lemmas: Python dict embedding -/

theorem dictLookup_setKey_self (k : String) (v : PyVal) (d : PyDict) :
    dictLookup k (setKey k v d) = some v := by
  induction d with
  | nil => simp [setKey, dictLookup]
  | cons kv rest ih =>
    obtain ⟨k', v'⟩ := kv
    by_cases h : k' = k
    · simp [setKey, dictLookup, h]
    · simp [setKey, dictLookup, h, ih]

theorem dictLookup_setKey_other (k j : String) (v : PyVal) (d : PyDict)
    (hjk : j ≠ k) : dictLookup j (setKey k v d) = dictLookup j d := by
  have hkj : ¬(k = j) := fun h => hjk h.symm
  induction d with
  | nil => simp [setKey, dictLookup, hkj]
  | cons kv rest ih =>
    obtain ⟨k', v'⟩ := kv
    by_cases h : k' = k
    · subst h
      simp [setKey, dictLookup, hkj]
    · simp [setKey, dictLookup, h, ih]

theorem dictLookup_not_mem (k : String) (d : PyDict)
    (h : k ∉ d.map Prod.fst) : dictLookup k d = none := by
  induction d with
  | nil => rfl
  | cons kv rest ih =>
    obtain ⟨k', v'⟩ := kv
    simp only [List.map_cons, List.mem_cons] at h
    push_neg at h
    have hne : ¬(k' = k) := fun hh => h.1 hh.symm
    simp only [dictLookup, if_neg hne, ih h.2]

theorem dictUpdate_nil_right (d : PyDict) : dictUpdate d [] = d := rfl

theorem dictUpdate_cons (d : PyDict) (k : String) (v : PyVal) (rest : PyDict) :
    dictUpdate d ((k, v) :: rest) = dictUpdate (setKey k v d) rest := rfl

theorem dictUpdate_lookup_none (other : PyDict) :
    ∀ (d : PyDict) (k : String), dictLookup k other = none →
      dictLookup k (dictUpdate d other) = dictLookup k d := by
  induction other with
  | nil => intro d k _; rfl
  | cons kv rest ih =>
    intro d k h
    obtain ⟨k0, v0⟩ := kv
    simp only [dictLookup] at h
    by_cases hk0 : k0 = k
    · rw [if_pos hk0] at h; cases h
    · rw [if_neg hk0] at h
      rw [dictUpdate_cons, ih (setKey k0 v0 d) k h,
        dictLookup_setKey_other k0 k v0 d (fun hkk => hk0 hkk.symm)]

theorem dictUpdate_lookup_some (other : PyDict) :
    ∀ (d : PyDict) (k : String) (v : PyVal),
      (other.map Prod.fst).Nodup → dictLookup k other = some v →
      dictLookup k (dictUpdate d other) = some v := by
  induction other with
  | nil => intro d k v _ h; cases h
  | cons kv rest ih =>
    intro d k v hnd h
    obtain ⟨k0, v0⟩ := kv
    simp only [List.map_cons, List.nodup_cons] at hnd
    simp only [dictLookup] at h
    by_cases hk0 : k0 = k
    · rw [if_pos hk0] at h
      cases h
      subst hk0
      have hrest : dictLookup k0 rest = none :=
        dictLookup_not_mem k0 rest hnd.1
      rw [dictUpdate_cons, dictUpdate_lookup_none rest _ k0 hrest,
        dictLookup_setKey_self]
    · rw [if_neg hk0] at h
      rw [dictUpdate_cons]
      exact ih (setKey k0 v0 d) k v hnd.2 h

/-! ## Helper lemmas: dot-key paths -/

/-- `leadsTo p q`: the path `p` is an initial segment of the path `q`. -/
def leadsTo (p q : List String) : Prop := ∃ r, p ++ r = q

theorem leadsTo_nil_left (q : List String) : leadsTo [] q := ⟨q, rfl⟩

theorem leadsTo_nil_right (p : List String) : leadsTo p [] ↔ p = [] := by
  constructor
  · rintro ⟨r, hr⟩
    exact (List.append_eq_nil.mp hr).1
  · rintro rfl
    exact ⟨[], rfl⟩

theorem leadsTo_cons_cons (a b : String) (p q : List String) :
    leadsTo (a :: p) (b :: q) ↔ a = b ∧ leadsTo p q := by
  constructor
  · rintro ⟨r, hr⟩
    rw [List.cons_append] at hr
    injection hr with h1 h2
    exact ⟨h1, r, h2⟩
  · rintro ⟨rfl, r, hr⟩
    exact ⟨r, by rw [List.cons_append, hr]⟩

theorem getPath_nil (d : PyDict) : getPath d [] = some (.dict d) := rfl

theorem getPath_lookup_none (d : PyDict) (k : String) (rest : List String)
    (hkd : dictLookup k d = none) : getPath d (k :: rest) = none := by
  cases rest <;> simp [getPath, hkd]

theorem getPath_single (d : PyDict) (k : String) :
    getPath d [k] = dictLookup k d := by
  cases hkd : dictLookup k d with
  | none => simp [getPath, hkd]
  | some v => cases v <;> simp [getPath, hkd]

theorem getPath_cons_dict (d : PyDict) (k : String) (sub : PyDict)
    (rest : List String) (hkd : dictLookup k d = some (.dict sub))
    (hne : rest ≠ []) : getPath d (k :: rest) = getPath sub rest := by
  cases rest with
  | nil => exact absurd rfl hne
  | cons r rs => simp [getPath, hkd]

theorem getPath_cons_nondict (d : PyDict) (k : String) (v : PyVal)
    (rest : List String) (hkd : dictLookup k d = some v)
    (hnd : ∀ sub, v ≠ .dict sub) (hne : rest ≠ []) :
    getPath d (k :: rest) = none := by
  cases rest with
  | nil => exact absurd rfl hne
  | cons r rs =>
    cases v with
    | int n => simp [getPath, hkd]
    | str s => simp [getPath, hkd]
    | dict sub => exact absurd rfl (hnd sub)

theorem getPath_empty (a : String) (t : List String) :
    getPath ([] : PyDict) (a :: t) = none :=
  getPath_lookup_none [] a t rfl

theorem getPath_congr_lookup (d1 d2 : PyDict) (a : String) (t : List String)
    (h : dictLookup a d1 = dictLookup a d2) :
    getPath d1 (a :: t) = getPath d2 (a :: t) := by
  cases t with
  | nil => rw [getPath_single, getPath_single, h]
  | cons b bt =>
    cases hv : dictLookup a d1 with
    | none =>
      rw [getPath_lookup_none d1 a _ hv, getPath_lookup_none d2 a _ (h ▸ hv)]
    | some v =>
      cases v with
      | dict sub =>
        rw [getPath_cons_dict d1 a sub _ hv (by simp),
          getPath_cons_dict d2 a sub _ (h ▸ hv) (by simp)]
      | int n =>
        rw [getPath_cons_nondict d1 a _ _ hv (by intro sub h'; cases h') (by simp),
          getPath_cons_nondict d2 a _ _ (h ▸ hv) (by intro sub h'; cases h') (by simp)]
      | str s =>
        rw [getPath_cons_nondict d1 a _ _ hv (by intro sub h'; cases h') (by simp),
          getPath_cons_nondict d2 a _ _ (h ▸ hv) (by intro sub h'; cases h') (by simp)]

/-! ## Helper lemmas: `setPath` correctness and frame property -/

theorem setPath_ok_spec (parts : List String) :
    ∀ (d d' : PyDict) (v : PyVal),
      setPath d parts v = .ok d' →
      getPath d' parts = some v ∧
      (∀ p, leadsTo p parts → p ≠ parts →
        ∃ sub, getPath d' p = some (PyVal.dict sub)) ∧
      (∀ q, ¬leadsTo q parts → ¬leadsTo parts q →
        getPath d' q = getPath d q) := by
  induction parts with
  | nil =>
    intro d d' v h
    cases h
  | cons k rest ih =>
    intro d d' v h
    cases rest with
    | nil =>
      simp only [setPath] at h
      cases h
      refine ⟨?_, ?_, ?_⟩
      · rw [getPath_single, dictLookup_setKey_self]
      · intro p hp hpne
        have hpnil : p = [] := by
          cases p with
          | nil => rfl
          | cons a t =>
            rcases (leadsTo_cons_cons a k t []).mp hp with ⟨rfl, ht⟩
            have ht' : t = [] := (leadsTo_nil_right t).mp ht
            subst ht'
            exact absurd rfl hpne
        subst hpnil
        exact ⟨setKey k v d, rfl⟩
      · intro q hq1 hq2
        cases q with
        | nil => exact absurd (leadsTo_nil_left _) hq1
        | cons a t =>
          by_cases hak : a = k
          · subst hak
            exact absurd ⟨t, rfl⟩ hq2
          · exact getPath_congr_lookup _ _ a t (dictLookup_setKey_other k a v d hak)
    | cons r rs =>
      have hne : (r :: rs : List String) ≠ [] := by simp
      simp only [setPath] at h
      cases hkd : dictLookup k d with
      | none =>
        rw [hkd] at h
        cases hsub : setPath [] (r :: rs) v with
        | error e =>
          rw [hsub] at h
          exact absurd h (by simp [Bind.bind, Except.bind])
        | ok sub =>
          rw [hsub] at h
          simp only [Bind.bind, Except.bind, Except.ok.injEq] at h
          subst h
          obtain ⟨h1, h2, h3⟩ := ih [] sub v hsub
          refine ⟨?_, ?_, ?_⟩
          · rw [getPath_cons_dict _ k sub _ (dictLookup_setKey_self k _ d) hne]
            exact h1
          · intro p hp hpne
            cases p with
            | nil => exact ⟨_, rfl⟩
            | cons a t =>
              rcases (leadsTo_cons_cons a k t (r :: rs)).mp hp with ⟨rfl, ht⟩
              cases t with
              | nil =>
                exact ⟨sub, by rw [getPath_single, dictLookup_setKey_self]⟩
              | cons b bt =>
                have htne : (b :: bt : List String) ≠ r :: rs := by
                  intro hh
                  rw [hh] at hpne
                  exact absurd rfl hpne
                obtain ⟨sub2, hsub2⟩ := h2 (b :: bt) ht htne
                refine ⟨sub2, ?_⟩
                rw [getPath_cons_dict _ a sub _ (dictLookup_setKey_self a _ d) (by simp)]
                exact hsub2
          · intro q hq1 hq2
            cases q with
            | nil => exact absurd (leadsTo_nil_left _) hq1
            | cons a t =>
              by_cases hak : a = k
              · subst hak
                have htne : t ≠ [] := by
                  intro hh
                  subst hh
                  exact hq1 ⟨r :: rs, rfl⟩
                have ht1 : ¬leadsTo t (r :: rs) := by
                  intro hh
                  exact hq1 ((leadsTo_cons_cons a a t (r :: rs)).mpr ⟨rfl, hh⟩)
                have ht2 : ¬leadsTo (r :: rs) t := by
                  intro ⟨w, hw⟩
                  exact hq2 ⟨w, by rw [List.cons_append, hw]⟩
                cases t with
                | nil => exact absurd rfl htne
                | cons b bt =>
                  rw [getPath_cons_dict _ a sub _ (dictLookup_setKey_self a _ d) (by simp),
                    getPath_lookup_none d a _ hkd, h3 (b :: bt) ht1 ht2,
                    getPath_empty b bt]
              · exact getPath_congr_lookup _ _ a t
                  (dictLookup_setKey_other k a _ d hak)
      | some val =>
        rw [hkd] at h
        cases val with
        | int n =>
          have h' : (Except.error PyError.typeError : Except PyError PyDict)
              = Except.ok d' := h
          cases h'
        | str s =>
          have h' : (Except.error PyError.typeError : Except PyError PyDict)
              = Except.ok d' := h
          cases h'
        | dict sub0 =>
          have h' : (do
              let sub ← setPath sub0 (r :: rs) v
              Except.ok (setKey k (PyVal.dict sub) d) : Except PyError PyDict)
              = Except.ok d' := h
          cases hsub : setPath sub0 (r :: rs) v with
          | error e =>
            rw [hsub] at h'
            exact absurd h' (by simp [Bind.bind, Except.bind])
          | ok sub' =>
            rw [hsub] at h'
            simp only [Bind.bind, Except.bind, Except.ok.injEq] at h'
            subst h'
            obtain ⟨h1, h2, h3⟩ := ih sub0 sub' v hsub
            refine ⟨?_, ?_, ?_⟩
            · rw [getPath_cons_dict _ k sub' _ (dictLookup_setKey_self k _ d) hne]
              exact h1
            · intro p hp hpne
              cases p with
              | nil => exact ⟨_, rfl⟩
              | cons a t =>
                rcases (leadsTo_cons_cons a k t (r :: rs)).mp hp with ⟨rfl, ht⟩
                cases t with
                | nil =>
                  exact ⟨sub', by rw [getPath_single, dictLookup_setKey_self]⟩
                | cons b bt =>
                  have htne : (b :: bt : List String) ≠ r :: rs := by
                    intro hh
                    rw [hh] at hpne
                    exact absurd rfl hpne
                  obtain ⟨sub2, hsub2⟩ := h2 (b :: bt) ht htne
                  refine ⟨sub2, ?_⟩
                  rw [getPath_cons_dict _ a sub' _ (dictLookup_setKey_self a _ d) (by simp)]
                  exact hsub2
            · intro q hq1 hq2
              cases q with
              | nil => exact absurd (leadsTo_nil_left _) hq1
              | cons a t =>
                by_cases hak : a = k
                · subst hak
                  have ht1 : ¬leadsTo t (r :: rs) := by
                    intro hh
                    exact hq1 ((leadsTo_cons_cons a a t (r :: rs)).mpr ⟨rfl, hh⟩)
                  have ht2 : ¬leadsTo (r :: rs) t := by
                    intro ⟨w, hw⟩
                    exact hq2 ⟨w, by rw [List.cons_append, hw]⟩
                  cases t with
                  | nil => exact absurd ⟨r :: rs, rfl⟩ hq1
                  | cons b bt =>
                    rw [getPath_cons_dict _ a sub' _ (dictLookup_setKey_self a _ d) (by simp),
                      getPath_cons_dict d a sub0 _ hkd (by simp),
                      h3 (b :: bt) ht1 ht2]
                · exact getPath_congr_lookup _ _ a t
                    (dictLookup_setKey_other k a _ d hak)

/-! ## Concrete fixtures used by the witnesses -/

/-- A depth source reading 0 everywhere. -/
def bamZero : BamFile := ⟨fun _ _ => 0⟩

/-- The depth source of the spec's §8 scenario: depth 5 below position 15,
depth 15 from there on. -/
def bamDemo : BamFile := ⟨fun _ p => if p < 15 then 5 else 15⟩

/-! ## Claims -/

/-- Claim C1: for every input record processed by the pipeline, the
completeness value of the emitted `MetricResult` tuple satisfies
`0.0 <= completeness <= 1.0`. -/
theorem pipeline_completeness_in_unit_range (bs : List String) (bam : BamFile)
    (cutoff : Nat) (ext : Int) (pre : String) (bp : Int)
    (out : List MetricResult) (h : pipeline bs bam cutoff ext pre bp = .ok out) :
    ∀ r ∈ out, 0 ≤ r.2.2 ∧ r.2.2 ≤ 1 := by
  obtain ⟨extended, -, rfl⟩ := pipeline_ok_shape bs bam cutoff ext pre bp out h
  intro r hr
  rw [List.mem_map] at hr
  obtain ⟨ds, hds, rfl⟩ := hr
  rw [List.mem_flatten] at hds
  obtain ⟨slices, hsl, hds2⟩ := hds
  rw [List.mem_map] at hsl
  obtain ⟨g, -, rfl⟩ := hsl
  exact calculate_metrics_completeness_bounds cutoff ds
    (process_interval_group_slice_len bam g ds hds2)

/-- Witness for C1 on the spec's §8 demo scenario. -/
theorem pipeline_completeness_in_unit_range_witness :
    pipeline ["chr1\t10\t20"] bamDemo 10 0 "" 17000
      = .ok (((group_intervals 17000 [⟨"chr1", 10, 20, none⟩]).map
          (process_interval_group bamDemo)).flatten.map (calculate_metrics 10)) ∧
    ∀ r ∈ ((group_intervals 17000 [(⟨"chr1", 10, 20, none⟩ : Interval)]).map
          (process_interval_group bamDemo)).flatten.map (calculate_metrics 10),
      0 ≤ r.2.2 ∧ r.2.2 ≤ 1 := by
  have hok := pipeline_ok_of_parse ["chr1\t10\t20"] bamDemo 10 0 "" 17000
    [⟨"chr1", 10, 20, none⟩] (by decide) (by rfl)
  exact ⟨hok, pipeline_completeness_in_unit_range _ bamDemo 10 0 "" 17000 _ hok⟩

/-- Claim C2: for a group of same-contig intervals, computing each member's
metrics through the batched path (one query over the union span, sliced per
member) yields exactly the pair that the member's own isolated query would
give; batching changes no observable output. -/
theorem batching_no_observable_change (bam : BamFile) (cutoff : Nat)
    (g : List Interval) (c : String) (hc : ∀ iv ∈ g, iv.contig = c) :
    (process_interval_group bam g).map (calculate_metrics cutoff)
      = g.map fun iv =>
          calculate_metrics cutoff (iv, bam.read iv.contig iv.start iv.stop) := by
  rw [process_interval_group_isolated bam g c hc, List.map_map]
  rfl

/-- Witness for C2: a two-member group over the §8 demo depth data. -/
theorem batching_no_observable_change_witness :
    (∀ iv ∈ [(⟨"chr1", 10, 20, none⟩ : Interval), ⟨"chr1", 12, 25, none⟩],
        iv.contig = "chr1") ∧
    (process_interval_group bamDemo
        [⟨"chr1", 10, 20, none⟩, ⟨"chr1", 12, 25, none⟩]).map (calculate_metrics 10)
      = [(⟨"chr1", 10, 20, none⟩ : Interval), ⟨"chr1", 12, 25, none⟩].map fun iv =>
          calculate_metrics 10 (iv, bamDemo.read iv.contig iv.start iv.stop) :=
  ⟨by decide,
   batching_no_observable_change bamDemo 10
     [⟨"chr1", 10, 20, none⟩, ⟨"chr1", 12, 25, none⟩] "chr1" (by decide)⟩

/-- Claim C3: the sequence of `Interval` values recoverable from the
pipeline's output, in order, equals the sequence of intervals obtained by
parsing and extending the input records, in order — the group-then-flatten
step never permutes, drops, or duplicates intervals. -/
theorem pipeline_order_preservation (bs : List String) (bam : BamFile)
    (cutoff : Nat) (ext : Int) (pre : String) (bp : Int)
    (extended : List Interval) (hbp : 0 < bp)
    (hparse : mapO (fun r => (parse_record pre r).bind (extend_interval ext)) bs
        = some extended) :
    ∃ out, pipeline bs bam cutoff ext pre bp = .ok out ∧
      out.map Prod.fst = extended := by
  refine ⟨_, pipeline_ok_of_parse bs bam cutoff ext pre bp extended hbp hparse, ?_⟩
  rw [metrics_map_fst, flatten_process_fst]

/-- Witness for C3 on a two-record stream. -/
theorem pipeline_order_preservation_witness :
    (0 : Int) < 17000 ∧
    mapO (fun r => (parse_record "" r).bind (extend_interval 0))
        ["chr1\t10\t20", "chr1\t30\t40"]
      = some [⟨"chr1", 10, 20, none⟩, ⟨"chr1", 30, 40, none⟩] ∧
    ∃ out, pipeline ["chr1\t10\t20", "chr1\t30\t40"] bamZero 10 0 "" 17000
        = .ok out ∧
      out.map Prod.fst = [⟨"chr1", 10, 20, none⟩, ⟨"chr1", 30, 40, none⟩] :=
  ⟨by decide, by rfl,
   pipeline_order_preservation ["chr1\t10\t20", "chr1\t30\t40"] bamZero 10 0 ""
     17000 [⟨"chr1", 10, 20, none⟩, ⟨"chr1", 30, 40, none⟩] (by decide) (by rfl)⟩

/-- Claim C4: the pipeline is exactly the composition parse → extend → group
→ retrieve-depth-per-group → flatten → compute-metrics (the spec's §4.6
wording, `pipeline_spec`), and it emits one `(Interval, coverage,
completeness)` tuple per input record. -/
theorem pipeline_is_exact_composition (bs : List String) (bam : BamFile)
    (cutoff : Nat) (ext : Int) (pre : String) (bp : Int) :
    pipeline bs bam cutoff ext pre bp = pipeline_spec bs bam cutoff ext pre bp ∧
    ∀ out, pipeline bs bam cutoff ext pre bp = .ok out →
      out.length = bs.length := by
  refine ⟨pipeline_eq_spec bs bam cutoff ext pre bp, ?_⟩
  intro out h
  obtain ⟨extended, hparse, rfl⟩ := pipeline_ok_shape bs bam cutoff ext pre bp out h
  rw [List.length_map]
  have hlen := congrArg List.length (flatten_process_fst bam bp extended)
  rw [List.length_map] at hlen
  rw [hlen]
  exact mapO_length _ bs extended hparse

/-- Witness for C4: one output tuple for the one input record. -/
theorem pipeline_is_exact_composition_witness :
    (((group_intervals 17000 [(⟨"chr1", 10, 20, none⟩ : Interval)]).map
        (process_interval_group bamZero)).flatten.map (calculate_metrics 10)).length
      = (["chr1\t10\t20"] : List String).length :=
  (pipeline_is_exact_composition ["chr1\t10\t20"] bamZero 10 0 "" 17000).2 _
    (pipeline_ok_of_parse ["chr1\t10\t20"] bamZero 10 0 "" 17000
      [⟨"chr1", 10, 20, none⟩] (by decide) (by rfl))

/-- Claim C5: a non-positive `bp_threshold` is a configuration error raised
before any input record is processed (for every stream, even an unparseable
one, the result is the configuration error), and for every positive
`bp_threshold` no configuration error is raised. -/
theorem pipeline_bp_threshold_validation (bs : List String) (bam : BamFile)
    (cutoff : Nat) (ext : Int) (pre : String) (bp : Int) :
    (bp ≤ 0 → pipeline bs bam cutoff ext pre bp = .error .configError) ∧
    (0 < bp → pipeline bs bam cutoff ext pre bp ≠ .error .configError) := by
  constructor
  · intro h
    simp [pipeline, h]
  · intro h hcontra
    rw [pipeline_eq_spec] at hcontra
    simp only [pipeline_spec, if_neg (not_le.mpr h)] at hcontra
    cases hp : mapO (fun r => (parse_record pre r).bind (extend_interval ext)) bs with
    | none =>
      rw [hp] at hcontra
      exact PipeError.noConfusion (Except.error.inj hcontra)
    | some extended =>
      rw [hp] at hcontra
      exact Except.noConfusion hcontra

/-- Witness for C5: `bp_threshold = 0` fails on an unparseable stream before
parsing could; `bp_threshold = 1` never yields the configuration error. -/
theorem pipeline_bp_threshold_validation_witness :
    pipeline ["garbage"] bamZero 10 0 "" 0 = .error .configError ∧
    pipeline ["garbage"] bamZero 10 0 "" 1 ≠ .error .configError :=
  ⟨(pipeline_bp_threshold_validation ["garbage"] bamZero 10 0 "" 0).1 (by decide),
   (pipeline_bp_threshold_validation ["garbage"] bamZero 10 0 "" 1).2 (by decide)⟩

/-- Claim C6 counterexample: the record `"chr1 10 20"`, whose fields are
separated by spaces, does not parse to the interval `("chr1", 10, 20)` — it
does not parse at all, because the pipeline splits on tab only — while the
same fields separated by tabs do parse. -/
theorem parser_space_delimited_counterexample :
    parse_record "" "chr1 10 20" = none ∧
    parse_record "" "chr1 10 20" ≠ some ⟨"chr1", 10, 20, none⟩ ∧
    parse_record "" "chr1\t10\t20" = some ⟨"chr1", 10, 20, none⟩ := by
  refine ⟨by decide, ?_, by decide⟩
  intro h
  rw [(by decide : parse_record "" "chr1 10 20" = none)] at h
  cases h

/-- Claim C6 (amended): the Interval Parser accepts fields delimited by tab
only: for every record whose contig, start and end fields are separated by
single tabs (with a tab-free contig and digit-string coordinates with
`start <= end`), parsing yields the Interval with those field values. -/
theorem parser_tab_delimited (contig sstr estr : String) (sv ev : Nat)
    (hcontig : ∀ c ∈ contig.data, c ≠ '\t')
    (hs : str_toNat sstr = some sv) (he : str_toNat estr = some ev)
    (hle : sv ≤ ev) :
    parse_record "" (contig ++ "\t" ++ sstr ++ "\t" ++ estr)
      = some ⟨contig, sv, ev, none⟩ :=
  parse_record_tab_fields "" contig sstr estr sv ev
    (fun c hc => absurd hc (by simp)) hcontig hs he hle

/-- Witness for the amended C6. -/
theorem parser_tab_delimited_witness :
    parse_record "" ("chr1" ++ "\t" ++ "10" ++ "\t" ++ "20")
      = some ⟨"chr1", 10, 20, none⟩ :=
  parser_tab_delimited "chr1" "10" "20" 10 20 (by decide) (by decide) (by decide)
    (by decide)

/-- Claim C7 counterexample: with `contig_prepend = "p\t0\t1\t"` (a string
containing tabs) and record `"chr1\t10\t20"`, the parsed interval is
`("p", 0, 1, name "chr1")`, not the interval with contig
`prepend "p\t0\t1\t" "chr1"` and the record's own start 10, end 20, name
unchanged: prepending happens on the raw line before the tab split, so a
tab inside `contig_prepend` shifts every field. -/
theorem prepend_tab_counterexample :
    parse_record "p\t0\t1\t" "chr1\t10\t20" = some ⟨"p", 0, 1, some "chr1"⟩ ∧
    parse_record "p\t0\t1\t" "chr1\t10\t20"
      ≠ some ⟨prepend "p\t0\t1\t" "chr1", 10, 20, none⟩ := by
  refine ⟨by decide, ?_⟩
  intro h
  rw [(by decide : parse_record "p\t0\t1\t" "chr1\t10\t20"
      = some ⟨"p", 0, 1, some "chr1"⟩)] at h
  have h2 := Option.some.inj h
  exact absurd (congrArg Interval.start h2) (by decide)

/-- Claim C7 (amended): for every record that parses and every tab-free
`contig_prepend` string, parsing the record with the prepend yields the same
Interval except that its contig is `contig_prepend` concatenated in front of
the record's raw contig field — the start, end and name fields are
unaffected by the prepending. -/
theorem prepend_contig_tab_free (pre rec : String) (iv : Interval)
    (hpre : ∀ c ∈ pre.data, c ≠ '\t')
    (h : parse_record "" rec = some iv) :
    parse_record pre rec
      = some ⟨prepend pre iv.contig, iv.start, iv.stop, iv.name⟩ := by
  have hempty : ("" : String).data = [] := rfl
  rw [parse_record_data, hempty, List.nil_append] at h
  obtain ⟨f1, t, hsplit⟩ := splitTabL_exists_cons (rstripL rec.data)
  rw [hsplit] at h
  cases t with
  | nil => rw [(by rfl : ([f1].map fun cs => (⟨cs⟩ : String)) = [⟨f1⟩])] at h; cases h
  | cons f2 t2 =>
    cases t2 with
    | nil =>
      rw [(by rfl : (([f1, f2]).map fun cs => (⟨cs⟩ : String)) = [⟨f1⟩, ⟨f2⟩])] at h
      cases h
    | cons f3 rest =>
      simp only [List.map_cons] at h
      rw [parse_record_data,
        splitTabL_append_left pre.data hpre (rstripL rec.data) f1 (f2 :: f3 :: rest)
          hsplit]
      simp only [List.map_cons]
      simp only [bed_to_interval] at h ⊢
      cases hsv : str_toNat ⟨f2⟩ with
      | none =>
        rw [hsv] at h
        exact Option.noConfusion h
      | some sv =>
        rw [hsv] at h
        cases hev : str_toNat ⟨f3⟩ with
        | none =>
          rw [hev] at h
          exact Option.noConfusion h
        | some ev =>
          rw [hev] at h
          have h' : (if sv ≤ ev then
              some (⟨⟨f1⟩, sv, ev,
                (rest.map fun cs => (⟨cs⟩ : String)).head?⟩ : Interval)
              else none) = some iv := h
          show (if sv ≤ ev then
              some (⟨⟨pre.data ++ f1⟩, sv, ev,
                (rest.map fun cs => (⟨cs⟩ : String)).head?⟩ : Interval)
              else none)
            = some ⟨prepend pre iv.contig, iv.start, iv.stop, iv.name⟩
          by_cases hle : sv ≤ ev
          · rw [if_pos hle] at h' ⊢
            cases h'
            rfl
          · rw [if_neg hle] at h'
            exact Option.noConfusion h'

/-- Witness for the amended C7: a name-bearing four-field record keeps its
start, end and name; only the contig gains the prefix. -/
theorem prepend_contig_tab_free_witness :
    parse_record "chr" "1\t10\t20\tgene"
      = some ⟨prepend "chr" "1", 10, 20, some "gene"⟩ :=
  prepend_contig_tab_free "chr" "1\t10\t20\tgene" ⟨"1", 10, 20, some "gene"⟩
    (by decide) (by decide)

/-- Claim C8: whenever `init_pipeline` runs with a `Config` object and the
questionnaire returns at least one answer, the attribute access `config.set`
raises `AttributeError` — neither `Config` nor `dict` defines a `set` method
— so no answer is stored (the state at the raise is the initial one) and
`config.save` is never reached (the run ends in the error). -/
theorem init_pipeline_attribute_error (config : ConfigObj)
    (user_defaults : List (String × PyVal)) (h : user_defaults ≠ []) :
    init_pipeline config user_defaults = .error (.attributeError, config) := by
  cases user_defaults with
  | nil => exact absurd rfl h
  | cons a rest =>
    obtain ⟨dk, v⟩ := a
    have hset : config_getattr "set" = .error .attributeError := by rfl
    simp only [init_pipeline, init_pipeline.go, hset]

/-- Witness for C8. -/
theorem init_pipeline_attribute_error_witness :
    init_pipeline ⟨[], []⟩ [("annotate.cutoff", PyVal.int 10)]
      = .error (.attributeError, ⟨[], []⟩) :=
  init_pipeline_attribute_error ⟨[], []⟩ [("annotate.cutoff", PyVal.int 10)]
    (List.cons_ne_nil _ _)

/-! ## Helper lemmas: updating the empty dict with unique keys -/

theorem setKey_not_mem_append (k : String) (v : PyVal) (d : PyDict)
    (h : k ∉ d.map Prod.fst) : setKey k v d = d ++ [(k, v)] := by
  induction d with
  | nil => rfl
  | cons kv rest ih =>
    obtain ⟨k', v'⟩ := kv
    simp only [List.map_cons, List.mem_cons] at h
    push_neg at h
    have hne : ¬(k' = k) := fun hh => h.1 hh.symm
    simp only [setKey, if_neg hne, List.cons_append, ih h.2]

theorem dictUpdate_disjoint (other : PyDict) :
    ∀ d : PyDict, (other.map Prod.fst).Nodup →
      (∀ k ∈ other.map Prod.fst, k ∉ d.map Prod.fst) →
      dictUpdate d other = d ++ other := by
  induction other with
  | nil => intro d _ _; simp [dictUpdate_nil_right]
  | cons kv rest ih =>
    intro d hnd hdisj
    obtain ⟨k0, v0⟩ := kv
    simp only [List.map_cons, List.nodup_cons] at hnd
    have hk0 : k0 ∉ d.map Prod.fst :=
      hdisj k0 (by simp)
    rw [dictUpdate_cons, setKey_not_mem_append k0 v0 d hk0,
      ih (d ++ [(k0, v0)]) hnd.2 ?_, List.append_assoc]
    · rfl
    · intro k hk
      rw [List.map_append, List.mem_append]
      push_neg
      refine ⟨hdisj k (by simp [hk]), ?_⟩
      simp only [List.map_cons, List.map_nil, List.mem_singleton]
      intro hkk
      rw [hkk] at hk
      exact hnd.1 hk

theorem dictUpdate_nil_eq (fdata : PyDict) (hf : (fdata.map Prod.fst).Nodup) :
    dictUpdate [] fdata = fdata := by
  have := dictUpdate_disjoint fdata [] hf (by simp)
  simpa using this

theorem lookup_update_empty (d : PyDict) (hd : (d.map Prod.fst).Nodup)
    (k : String) : dictLookup k (dictUpdate [] d) = dictLookup k d := by
  rw [dictUpdate_nil_eq d hd]

/-- Claim C9: after constructing a `Config` from defaults and an existing
config file, every key present in the file's data maps to the file's value,
every defaults key absent from the file keeps its default value, `user_data`
holds exactly the pairs loaded from the file (never the defaults), and
`Config.save` persists exactly `user_data` and returns the config itself. -/
theorem config_init_file_overrides_defaults (defaults fdata : PyDict)
    (k : String) (hd : (defaults.map Prod.fst).Nodup)
    (hf : (fdata.map Prod.fst).Nodup) :
    (∀ v, dictLookup k fdata = some v →
        dictLookup k (Config_init defaults true fdata).data = some v) ∧
    (dictLookup k fdata = none →
        dictLookup k (Config_init defaults true fdata).data = dictLookup k defaults) ∧
    dictLookup k (Config_init defaults true fdata).user_data = dictLookup k fdata ∧
    Config_save (Config_init defaults true fdata)
      = ((Config_init defaults true fdata).user_data,
         Config_init defaults true fdata) := by
  have hud : (Config_init defaults true fdata).user_data = fdata := by
    simp only [Config_init, if_pos]
    exact dictUpdate_nil_eq fdata hf
  have hdata : (Config_init defaults true fdata).data
      = dictUpdate (dictUpdate [] defaults) fdata := by
    simp only [Config_init, if_pos]
    rw [dictUpdate_nil_eq fdata hf]
  refine ⟨?_, ?_, ?_, rfl⟩
  · intro v hv
    rw [hdata]
    exact dictUpdate_lookup_some fdata _ k v hf hv
  · intro hnone
    rw [hdata, dictUpdate_lookup_none fdata _ k hnone,
      lookup_update_empty defaults hd k]
  · rw [hud]

/-- Witness for C9: default `{"a": 1, "b": 2}` overridden by file data
`{"b": 9, "c": 3}` yields 9 at `"b"`. -/
theorem config_init_file_overrides_defaults_witness :
    dictLookup "b" (Config_init [("a", PyVal.int 1), ("b", PyVal.int 2)] true
        [("b", PyVal.int 9), ("c", PyVal.int 3)]).data = some (PyVal.int 9) :=
  (config_init_file_overrides_defaults
      [("a", PyVal.int 1), ("b", PyVal.int 2)]
      [("b", PyVal.int 9), ("c", PyVal.int 3)] "b"
      (by simp) (by simp)).1 (PyVal.int 9) (by rfl)

/-- Claim C10 counterexample: for the dict `{"a": 5}` and dot key `"a.b"`,
`set_value` raises `TypeError` (the intermediate key `"a"` is bound to a
non-dict, and Python's `in`/item assignment on an `int` raises), so no
binding is created; the claim's universally quantified description fails on
this base. -/
theorem set_value_nondict_counterexample :
    set_value [("a", PyVal.int 5)] "a.b" (PyVal.int 0) = .error .typeError := by
  rfl

/-- Claim C10 (amended): whenever `set_value` succeeds — that is, every
already-bound intermediate key along the dot path is bound to a dict — the
result holds the value at the dot path `k1…kn`, every strictly shorter
initial segment of the path is bound to a dict (missing intermediates were
created as dicts), and every path diverging from the written one reads
exactly as before; a non-dict intermediate instead raises `TypeError`. -/
theorem set_value_path_frame (base : PyDict) (dot_key : String) (v : PyVal)
    (d' : PyDict) (h : set_value base dot_key v = .ok d') :
    getPath d' ((splitDotL dot_key.data).map fun cs => (⟨cs⟩ : String)) = some v ∧
    (∀ p, leadsTo p ((splitDotL dot_key.data).map fun cs => (⟨cs⟩ : String)) →
        p ≠ (splitDotL dot_key.data).map (fun cs => (⟨cs⟩ : String)) →
        ∃ sub, getPath d' p = some (PyVal.dict sub)) ∧
    (∀ q, ¬leadsTo q ((splitDotL dot_key.data).map fun cs => (⟨cs⟩ : String)) →
        ¬leadsTo ((splitDotL dot_key.data).map (fun cs => (⟨cs⟩ : String))) q →
        getPath d' q = getPath base q) :=
  setPath_ok_spec _ base d' v h

/-- Witness for the amended C10: writing `7` at `"a.b"` into the empty dict
creates the nested dict and the value is readable at the path. -/
theorem set_value_path_frame_witness :
    getPath [("a", PyVal.dict [("b", PyVal.int 7)])] ["a", "b"]
      = some (PyVal.int 7) :=
  (set_value_path_frame [] "a.b" (PyVal.int 7)
    [("a", PyVal.dict [("b", PyVal.int 7)])] (by rfl)).1

end Chanjo
